import Mathlib

/-!
Shallow embedding of the DebugAssist diagnosis pipeline
(`debugassist/preprocess.py`, `debugassist/rules.py`,
`debugassist/retrieval.py`, `debugassist/predict.py`).

Text is modelled as `List Char` (wrapped in `String` at the interfaces).
Python regular-expression substitutions and searches are modelled by
explicit left-to-right scanners that mirror the behaviour of `re.sub` /
`re.search` on the concrete patterns appearing in the source: leftmost
match, non-overlapping continuation after the end of a match, greedy
(or lazy, for the quoted-string pattern) repetition with the only
backtracking opportunities those patterns actually admit, and `\b`
word-boundary tests evaluated against the original text.
Character classes are modelled at ASCII granularity (the corpus and the
rule literals are ASCII).
-/

/-- Python `\s` whitespace, ASCII range (space, tab, newline, CR, VT, FF). -/
def isWs (c : Char) : Bool :=
  c == ' ' || c == '\t' || c == '\n' || c == '\r' ||
  c == Char.ofNat 11 || c == Char.ofNat 12

/-- Python `\w` word character, ASCII range: letters, digits, underscore. -/
def isWordChar (c : Char) : Bool := c.isAlphanum || c == '_'

/-- Word-ness of the character left/right of a position; `none` (text edge)
counts as non-word, as in `re`'s `\b`. -/
def nonWord? : Option Char → Bool
  | none => true
  | some c => !isWordChar c

/-- Python `str.strip()`: drop whitespace from both ends. -/
def pstrip (l : List Char) : List Char :=
  ((l.dropWhile isWs).reverse.dropWhile isWs).reverse

/-- Python `str.lower()` (ASCII letters). -/
def plower (l : List Char) : List Char := l.map Char.toLower

/-- Case-insensitive literal match at the current position: `lit` is given
lowercase; returns the remainder after the literal on success. -/
def matchCI : List Char → List Char → Option (List Char)
  | [], s => some s
  | _ :: _, [] => none
  | a :: as, c :: cs => if c.toLower == a then matchCI as cs else none

/-- Generic model of `re.sub(pattern, tok, s)` given a matcher `tryM` that,
at a position (with the previous original character for `\b` tests),
returns the consumed match and the remainder.  Fuel-driven so that the
definition computes by kernel reduction; fuel `length + 1` always
suffices since every match consumes at least one character. -/
def scanSub (tryM : Option Char → List Char → Option (List Char × List Char))
    (tok : List Char) : Nat → Option Char → List Char → List Char
  | 0, _, s => s
  | _ + 1, _, [] => []
  | fuel + 1, prev, c :: rest =>
    match tryM prev (c :: rest) with
    | some (m, rem) => tok ++ scanSub tryM tok fuel m.getLast? rem
    | none => c :: scanSub tryM tok fuel (some c) rest

/-- Generic model of `re.search(pattern, s) is not None`. -/
def searchAux (tryM : Option Char → List Char → Option (List Char × List Char)) :
    Option Char → List Char → Bool
  | prev, [] => (tryM prev []).isSome
  | prev, c :: rest => (tryM prev (c :: rest)).isSome || searchAux tryM (some c) rest

/-! ### `_WINDOWS_PATH_RE = [A-Za-z]:\\(?:[^\\\n]+\\)*[^\\\n]+` -/

def isAsciiLetter (c : Char) : Bool :=
  ('a' ≤ c && c ≤ 'z') || ('A' ≤ c && c ≤ 'Z')

/-- Segment character of a Windows path: `[^\\\n]`. -/
def isSegW (c : Char) : Bool := c != '\\' && c != '\n'

/-- Greedy parse of `(?:[^\\\n]+\\)*[^\\\n]+` (with the backtracking the
greedy star admits: a separating backslash is consumed only when a
non-empty segment follows it). -/
def winSegs : Nat → List Char → Option (List Char × List Char)
  | 0, _ => none
  | fuel + 1, s =>
    let seg := s.takeWhile isSegW
    if seg.isEmpty then none
    else
      let rest := s.drop seg.length
      match rest with
      | '\\' :: d :: _ =>
        if isSegW d then
          match winSegs fuel (rest.drop 1) with
          | some (m, rem) => some (seg ++ '\\' :: m, rem)
          | none => some (seg, rest)
        else some (seg, rest)
      | _ => some (seg, rest)

def tryWin (_prev : Option Char) (s : List Char) : Option (List Char × List Char) :=
  match s with
  | a :: b :: c :: rest =>
    if isAsciiLetter a && b == ':' && c == '\\' then
      match winSegs (rest.length + 1) rest with
      | some (m, rem) => some (a :: b :: c :: m, rem)
      | none => none
    else none
  | _ => none

/-! ### `_UNIX_PATH_RE = (?:/[^/\n]+)+` -/

/-- Segment character of a Unix path: `[^/\n]`. -/
def isSegU (c : Char) : Bool := c != '/' && c != '\n'

/-- Greedy parse of `(?:/[^/\n]+)+`. -/
def unixSegs : Nat → List Char → Option (List Char × List Char)
  | 0, _ => none
  | fuel + 1, s =>
    match s with
    | c :: rest =>
      if c == '/' then
        let seg := rest.takeWhile isSegU
        if seg.isEmpty then none
        else
          let rest2 := rest.drop seg.length
          match unixSegs fuel rest2 with
          | some (m, rem) => some (c :: (seg ++ m), rem)
          | none => some (c :: seg, rest2)
      else none
    | [] => none

def tryUnix (_prev : Option Char) (s : List Char) : Option (List Char × List Char) :=
  unixSegs (s.length + 1) s

/-! ### `_LINE_NUMBER_RE = \bline\s+\d+\b` (IGNORECASE) -/

def tryLine (prev : Option Char) (s : List Char) : Option (List Char × List Char) :=
  if !nonWord? prev then none
  else
    match matchCI "line".data s with
    | none => none
    | some r1 =>
      let w := r1.takeWhile isWs
      if w.isEmpty then none
      else
        let r2 := r1.drop w.length
        let d := r2.takeWhile Char.isDigit
        if d.isEmpty then none
        else
          let r3 := r2.drop d.length
          match r3 with
          | [] => some (s.take 4 ++ w ++ d, r3)
          | c :: _ => if isWordChar c then none else some (s.take 4 ++ w ++ d, r3)

/-! ### `_HEX_RE = \b0x[0-9a-fA-F]+\b` (no flags) -/

def isHexDig (c : Char) : Bool :=
  c.isDigit || ('a' ≤ c && c ≤ 'f') || ('A' ≤ c && c ≤ 'F')

def tryHex (prev : Option Char) (s : List Char) : Option (List Char × List Char) :=
  if !nonWord? prev then none
  else
    match s with
    | c0 :: c1 :: rest =>
      if c0 == '0' && c1 == 'x' then
        let d := rest.takeWhile isHexDig
        if d.isEmpty then none
        else
          let r := rest.drop d.length
          match r with
          | [] => some (c0 :: c1 :: d, r)
          | c :: _ => if isWordChar c then none else some (c0 :: c1 :: d, r)
      else none
    | _ => none

/-! ### `_QUOTED_STR_RE = (['\"])(?:(?=(\\?))\2.)*?\1`

Lazy body: at each step first try the closing quote, else consume an
escaped pair `\c` (atomically, thanks to the lookahead capture) or a
single non-newline character. -/

def isQuote (c : Char) : Bool := c == '\'' || c == '"'

def strBody : Nat → Char → List Char → Option (List Char × List Char)
  | 0, _, _ => none
  | _ + 1, _, [] => none
  | fuel + 1, q, c :: rest =>
    if c == q then some ([c], rest)
    else if c == '\\' then
      match rest with
      | [] => none
      | d :: rest2 =>
        if d == '\n' then none
        else
          match strBody fuel q rest2 with
          | some (b, r) => some (c :: d :: b, r)
          | none => none
    else if c == '\n' then none
    else
      match strBody fuel q rest with
      | some (b, r) => some (c :: b, r)
      | none => none

def tryStr (_prev : Option Char) (s : List Char) : Option (List Char × List Char) :=
  match s with
  | c :: rest =>
    if isQuote c then
      match strBody (rest.length + 1) c rest with
      | some (b, r) => some (c :: b, r)
      | none => none
    else none
  | [] => none

/-! ### `_PLAIN_INT_RE = \b\d+\b` -/

def tryNum (prev : Option Char) (s : List Char) : Option (List Char × List Char) :=
  if !nonWord? prev then none
  else
    match s with
    | c :: _ =>
      if c.isDigit then
        let d := s.takeWhile Char.isDigit
        let r := s.drop d.length
        match r with
        | [] => some (d, r)
        | x :: _ => if isWordChar x then none else some (d, r)
      else none
    | [] => none

/-! ### `_WHITESPACE_RE = \s+` replaced by a single space -/

/-- State machine for `re.sub(r"\s+", " ", s)`: the flag records whether
the previous character was inside a whitespace run. -/
def wsAux : Bool → List Char → List Char
  | _, [] => []
  | afterWs, c :: r =>
    if isWs c then
      if afterWs then wsAux true r else ' ' :: wsAux true r
    else c :: wsAux false r

def wsCollapse (s : List Char) : List Char := wsAux false s

/-- List-level body of `preprocess.normalize_text`: strip+lowercase,
then the six masking substitutions in source order, then whitespace
collapse and strip. -/
def normData (l : List Char) : List Char :=
  let t0 := plower (pstrip l)
  let t1 := scanSub tryWin "<PATH>".data (t0.length + 1) none t0
  let t2 := scanSub tryUnix "<PATH>".data (t1.length + 1) none t1
  let t3 := scanSub tryLine "line <LINE>".data (t2.length + 1) none t2
  let t4 := scanSub tryHex "<HEX>".data (t3.length + 1) none t3
  let t5 := scanSub tryStr "<STR>".data (t4.length + 1) none t4
  let t6 := scanSub tryNum "<NUM>".data (t5.length + 1) none t5
  pstrip (wsCollapse t6)

/-- `preprocess.normalize_text`. -/
def normalize_text (s : String) : String := String.mk (normData s.data)

/-- `preprocess.combine_inputs`: append the code snippet after a
`<CODE>` marker line when it is present and non-blank. -/
def combine_inputs (error_text : String) (code : Option String) : String :=
  match code with
  | some c =>
    if (pstrip c.data).isEmpty then error_text
    else error_text ++ "\n<CODE>\n" ++ c
  | none => error_text

/-!
## `rules.py`

Every rule pattern is a case-insensitive literal search, except
`\bnonetype\b.*\bhas no attribute\b` (a two-literal same-line search)
and the MULTILINE bare-quoted-key pattern.  All literals start with a
word character, so the leading `\b` is exactly "previous character is
not a word character (or text start)".
-/

/-- `re.search` existence: try a match at every position, tracking the
previous character for `\b` tests. -/
def searchGen (matchAt : Option Char → List Char → Bool) :
    Option Char → List Char → Bool
  | prev, [] => matchAt prev []
  | prev, c :: rest => matchAt prev (c :: rest) || searchGen matchAt (some c) rest

/-- Match of `\b<lit>\b` (or `\b<lit>` when `rb = false`) at the current
position; `lit` is lowercase, comparison is case-insensitive. -/
def litAt (lit : List Char) (rb : Bool) (prev : Option Char) (s : List Char) : Bool :=
  nonWord? prev &&
  match matchCI lit s with
  | none => false
  | some rem =>
    if rb then
      match lit.getLast?, rem with
      | some lc, [] => isWordChar lc
      | some lc, d :: _ => isWordChar lc != isWordChar d
      | none, _ => false
    else true

def ruleLit (lit : String) (rb : Bool) (t : List Char) : Bool :=
  searchGen (litAt lit.data rb) none t

/-- Match of `\bnonetype\b.*\bhas no attribute\b` at the current position:
`.*` does not cross a newline, so the second literal is searched in the
remainder of the current line. -/
def matchNoneAttrAt (prev : Option Char) (s : List Char) : Bool :=
  nonWord? prev &&
  match matchCI "nonetype".data s with
  | none => false
  | some rem =>
    match rem with
    | [] => false
    | c :: _ =>
      !isWordChar c &&
      searchGen (litAt "has no attribute".data true) (some 'e')
        (rem.takeWhile (fun x => x != '\n'))

/-- Character class `[A-Za-z0-9_ -]` of the bare-quoted-key rule. -/
def isKeyChar (c : Char) : Bool :=
  c.isAlphanum || c == '_' || c == ' ' || c == '-'

/-- Split at newlines (`'\n'`), keeping empty lines. -/
def splitLines : List Char → List (List Char)
  | [] => [[]]
  | c :: rest =>
    if c == '\n' then [] :: splitLines rest
    else
      match splitLines rest with
      | l :: ls => (c :: l) :: ls
      | [] => [[c]]

/-- One MULTILINE anchor attempt of
`^\s*['\"][A-Za-z0-9_ -]{1,40}['\"]\s*$` on a single line: leading
whitespace, a quote, a 1–40 character key-charset run (maximal — the
charset contains no quote, so no shorter run can be closed), a quote,
trailing whitespace to the end of the line.  Since `\s` matches `'\n'`,
an anchor whose `\s*` crosses a newline is subsumed by a later anchor,
so searching line by line is equivalent. -/
def lineHit (l : List Char) : Bool :=
  match l.dropWhile isWs with
  | [] => false
  | q :: rest =>
    isQuote q && !(rest.takeWhile isKeyChar).isEmpty &&
    decide ((rest.takeWhile isKeyChar).length ≤ 40) &&
    match rest.dropWhile isKeyChar with
    | q2 :: rest2 => isQuote q2 && rest2.all isWs
    | [] => false

def bareKeySearch (t : List Char) : Bool := (splitLines t).any lineHit

/-- `rules._RULES`, in declaration order. -/
def _RULES : List (String × (List Char → Bool)) := [
  ("import_error", ruleLit "modulenotfounderror" true),
  ("import_error", ruleLit "importerror" true),
  ("import_error", ruleLit "no module named" true),
  ("import_error", ruleLit "cannot import name" true),
  ("syntax_error", ruleLit "syntaxerror" true),
  ("syntax_error", ruleLit "indentationerror" true),
  ("syntax_error", ruleLit "unexpected indent" true),
  ("syntax_error", ruleLit "expected an indented block" true),
  ("type_error", ruleLit "typeerror" true),
  ("type_error", ruleLit "not callable" true),
  ("type_error", ruleLit "unsupported operand type" false),
  ("type_error", ruleLit "has no len()" true),
  ("value_error", ruleLit "valueerror" true),
  ("value_error", ruleLit "invalid literal for int()" false),
  ("value_error", ruleLit "could not convert string to float" true),
  ("value_error", ruleLit "list.remove(x): x not in list" true),
  ("attribute_error", ruleLit "attributeerror" true),
  ("attribute_error", ruleLit "has no attribute" true),
  ("attribute_error", fun t => searchGen matchNoneAttrAt none t),
  ("key_error", ruleLit "keyerror" true),
  ("key_error", bareKeySearch),
  ("index_error", ruleLit "indexerror" true),
  ("index_error", ruleLit "list index out of range" true),
  ("file_error", ruleLit "filenotfounderror" true),
  ("file_error", ruleLit "permissionerror" true),
  ("file_error", ruleLit "no such file or directory" true),
  ("file_error", ruleLit "permission denied" true),
  ("zero_division", ruleLit "zerodivisionerror" true),
  ("zero_division", ruleLit "division by zero" true),
  ("zero_division", ruleLit "integer division or modulo by zero" true),
  ("connection_error", ruleLit "requests.exceptions.timeout" true),
  ("connection_error", ruleLit "requests.exceptions.connectionerror" true),
  ("connection_error", ruleLit "read timed out" true),
  ("connection_error", ruleLit "connection refused" true)]

/-- First rule whose pattern matches wins. -/
def firstRule : List (String × (List Char → Bool)) → List Char → Option String
  | [], _ => none
  | (fam, p) :: rest, t => if p t then some fam else firstRule rest t

/-- `rules.rule_predict`. -/
def rule_predict (s : String) : Option String :=
  if s.data.isEmpty || (pstrip s.data).isEmpty then none
  else firstRule _RULES (pstrip s.data)

/-!
## `retrieval.py`

The vectorizer and `cosine_similarity` are external sklearn
collaborators; `query` is embedded over the resulting similarity vector
`sims` (one score per corpus row, aligned by position).  `numpy.argsort`
is modelled as the stable ascending argsort, i.e. sorting the indices
by the score with the index itself as tie-break.
-/

structure Case where
  id : String
  error_family : String
  error_text : String
  fix_text : String
deriving DecidableEq, Inhabited

structure SimilarCase where
  id : String
  error_family : String
  error_text : String
  fix_text : String
  score : ℚ
deriving DecidableEq

/-- Order used by the stable ascending argsort: by score, then by
original position. -/
def simLE (sims : List ℚ) (i j : ℕ) : Prop :=
  sims.getD i 0 < sims.getD j 0 ∨ (sims.getD i 0 = sims.getD j 0 ∧ i ≤ j)

instance (sims : List ℚ) : DecidableRel (simLE sims) := fun i j => by
  unfold simLE; infer_instance

instance (sims : List ℚ) : IsTotal ℕ (simLE sims) where
  total i j := by
    rcases lt_trichotomy (sims.getD i 0) (sims.getD j 0) with h | h | h
    · exact Or.inl (Or.inl h)
    · rcases Nat.le_total i j with hij | hij
      · exact Or.inl (Or.inr ⟨h, hij⟩)
      · exact Or.inr (Or.inr ⟨h.symm, hij⟩)
    · exact Or.inr (Or.inl h)

instance (sims : List ℚ) : IsTrans ℕ (simLE sims) where
  trans i j k hij hjk := by
    rcases hij with h1 | ⟨e1, l1⟩
    · rcases hjk with h2 | ⟨e2, _⟩
      · exact Or.inl (h1.trans h2)
      · exact Or.inl (e2 ▸ h1)
    · rcases hjk with h2 | ⟨e2, l2⟩
      · exact Or.inl (e1 ▸ h2)
      · exact Or.inr ⟨e1.trans e2, l1.trans l2⟩

/-- `sims.argsort()` (stable, ascending). -/
def argsort (sims : List ℚ) : List ℕ :=
  List.insertionSort (simLE sims) (List.range sims.length)

/-- The row indices returned by `RetrievalIndex.query`:
`sims.argsort()[::-1][:top_k]` guarded by `top_k <= 0`. -/
def queryIndices (sims : List ℚ) (top_k : ℤ) : List ℕ :=
  if top_k ≤ 0 then [] else (argsort sims).reverse.take top_k.toNat

/-- `RetrievalIndex.query`: build a `SimilarCase` from each selected row. -/
def queryResults (cases : List Case) (sims : List ℚ) (top_k : ℤ) :
    List SimilarCase :=
  (queryIndices sims top_k).map fun i =>
    let row := cases.getD i default
    { id := row.id, error_family := row.error_family,
      error_text := row.error_text, fix_text := row.fix_text,
      score := sims.getD i 0 }

/-!
## `predict.py`

The trained sklearn artifacts are external; the pair
(vectorizer, classifier) is abstracted as `MLModel`: a label function
and an optional probability function (`predict_proba` plus `classes_`,
already paired up), both over the normalized combined text.  `main`'s
branching and the shape of what it prints are captured by
`MainOutput`/`mainDecision`.
-/

structure MLModel where
  predictLabel : String → String
  proba : Option (String → List (String × ℚ))

def LOW_CONF_THRESHOLD : ℚ := mkRat 35 100

def TOP_N_ALTERNATIVES : ℕ := 3

/-- Python `sorted(pairs, key=lambda t: t[1], reverse=True)`: stable,
descending by probability. -/
def sortPairsDesc (l : List (String × ℚ)) : List (String × ℚ) :=
  List.insertionSort (fun a b => b.2 ≤ a.2) l

/-- `predict._predict_family_ml`: label from the classifier; when
`predict_proba` exists, the top-N candidate (family, probability) pairs
sorted by descending probability, the confidence being the top one. -/
def _predict_family_ml (m : MLModel) (combined_text : String) :
    String × Option ℚ × List (String × ℚ) :=
  let x := normalize_text combined_text
  let label := m.predictLabel x
  match m.proba with
  | none => (label, none, [])
  | some f =>
    let top_candidates := (sortPairsDesc (f x)).take TOP_N_ALTERNATIVES
    match top_candidates.head? with
    | some p => (p.1, some p.2, top_candidates)
    | none => (label, none, top_candidates)

/-- Shape of one `predict.main` run: the prediction header fields, and
which of the two output branches ran — the low-confidence fan-out
(checklists for all top candidates plus the paste-the-exact-error
prompt, no retrieval) or the normal branch (single checklist plus a
retrieval query with the given text and `top_k`). -/
structure MainOutput where
  family : String
  method : String
  confidence : Option ℚ
  candidates : List (String × ℚ)
  lowConfChecklists : Option (List (String × ℚ))
  promptExactError : Bool
  retrieval : Option (String × ℤ)
deriving DecidableEq

/-- `predict.main`: rules first; on no rule decision the ML path; then
the low-confidence branch exactly when the method is `ml` and a
confidence is known and strictly below the threshold. -/
def mainDecision (text : String) (code : Option String) (top_k : ℤ)
    (m : MLModel) : MainOutput :=
  let raw_input := combine_inputs text code
  let step :=
    match rule_predict text with
    | some fam => ("rules", fam, (none : Option ℚ), ([] : List (String × ℚ)))
    | none =>
      let r := _predict_family_ml m raw_input
      ("ml", r.1, r.2.1, r.2.2)
  let lowConf :=
    step.1 == "ml" &&
    match step.2.2.1 with
    | some c => decide (c < LOW_CONF_THRESHOLD)
    | none => false
  if lowConf then
    { family := step.2.1, method := step.1, confidence := step.2.2.1,
      candidates := step.2.2.2, lowConfChecklists := some step.2.2.2,
      promptExactError := true, retrieval := none }
  else
    { family := step.2.1, method := step.1, confidence := step.2.2.1,
      candidates := step.2.2.2, lowConfChecklists := none,
      promptExactError := false, retrieval := some (raw_input, top_k) }

/-!
## Auxiliary predicates used by the theorems
-/

/-- Lowercase ASCII letter or whitespace. -/
def lwsChar (c : Char) : Bool := ('a' ≤ c && c ≤ 'z') || isWs c

/-- No two adjacent whitespace characters. -/
def noDD : List Char → Bool
  | [] => true
  | [_] => true
  | a :: b :: r => !(isWs a && isWs b) && noDD (b :: r)

/-- Every whitespace character is a plain space. -/
def spaceOnlyWs (l : List Char) : Bool := l.all fun c => !isWs c || c == ' '

/-- Neither end of the list is whitespace. -/
def noEdgeWs (l : List Char) : Bool :=
  (match l.head? with | none => true | some c => !isWs c) &&
  (match l.getLast? with | none => true | some c => !isWs c)

/-- Specification-side reading of the bare-quoted-key rule on one line:
the line is exactly optional whitespace, a quote, a token of 1–40
characters from `[A-Za-z0-9_ -]`, a quote, optional whitespace. -/
def specBareKeyLine (l : List Char) : Prop :=
  ∃ w1 q c q2 w2, l = w1 ++ q :: (c ++ q2 :: w2) ∧
    (∀ x ∈ w1, isWs x = true) ∧ isQuote q = true ∧
    1 ≤ c.length ∧ c.length ≤ 40 ∧ (∀ x ∈ c, isKeyChar x = true) ∧
    isQuote q2 = true ∧ (∀ x ∈ w2, isWs x = true)

/-!
## Theorems
-/

/-- C9: the normalization of `File "a.py", line 42` contains the masked
line-number token sequence `line <LINE>` and no literal `42`. -/
theorem normalize_masks_line_number :
    ("line <LINE>".data <:+: (normalize_text "File \"a.py\", line 42").data) ∧
    ¬ ("42".data <:+: (normalize_text "File \"a.py\", line 42").data) := by
  decide

/-- C1 counterexample: the masking transform is not idempotent — the
second pass lowercases the `<LINE>` placeholder the first pass
introduced. -/
theorem normalize_idempotent_cex :
    normalize_text (normalize_text "line 42") ≠ normalize_text "line 42" ∧
    normalize_text "line 42" = "line <LINE>" ∧
    normalize_text (normalize_text "line 42") = "line <line>" := by
  refine ⟨by decide, by decide, by decide⟩

/-- C5: when the rule classifier decides, the ML path is never consulted
(the outcome is the same for every model) and the result is exactly
(family, method=rules, no confidence, empty candidates), followed by
the normal checklist-plus-retrieval branch. -/
theorem rules_path_excludes_ml (text : String) (code : Option String)
    (top_k : ℤ) (m : MLModel) (fam : String)
    (h : rule_predict text = some fam) :
    mainDecision text code top_k m =
      { family := fam, method := "rules", confidence := none, candidates := [],
        lowConfChecklists := none, promptExactError := false,
        retrieval := some (combine_inputs text code, top_k) } ∧
    ∀ m' : MLModel, mainDecision text code top_k m' = mainDecision text code top_k m := by
  constructor
  · simp [mainDecision, h]
  · intro m'; simp [mainDecision, h]

/-- C5 witness at `"TypeError: boom"`. -/
theorem rules_path_excludes_ml_witness :
    rule_predict "TypeError: boom" = some "type_error" ∧
    mainDecision "TypeError: boom" none 3 ⟨fun _ => "x", none⟩ =
      { family := "type_error", method := "rules", confidence := none,
        candidates := [], lowConfChecklists := none, promptExactError := false,
        retrieval := some ("TypeError: boom", 3) } :=
  ⟨by decide,
    (rules_path_excludes_ml "TypeError: boom" none 3 ⟨fun _ => "x", none⟩
      "type_error" (by decide)).1⟩

/-- C8: a classifier without `predict_proba` yields confidence unknown
and no candidates, so the low-confidence branch is skipped and the
single-checklist-plus-retrieval path runs. -/
theorem no_proba_skips_lowconf (text : String) (code : Option String)
    (top_k : ℤ) (m : MLModel)
    (hp : m.proba = none) (hr : rule_predict text = none) :
    mainDecision text code top_k m =
      { family := m.predictLabel (normalize_text (combine_inputs text code)),
        method := "ml", confidence := none, candidates := [],
        lowConfChecklists := none, promptExactError := false,
        retrieval := some (combine_inputs text code, top_k) } := by
  simp [mainDecision, _predict_family_ml, hr, hp]

/-- C8 witness. -/
theorem no_proba_skips_lowconf_witness :
    rule_predict "zzz" = none ∧
    mainDecision "zzz" none 3 ⟨fun _ => "q", none⟩ =
      { family := "q", method := "ml", confidence := none, candidates := [],
        lowConfChecklists := none, promptExactError := false,
        retrieval := some ("zzz", 3) } :=
  ⟨by decide, no_proba_skips_lowconf "zzz" none 3 ⟨fun _ => "q", none⟩ rfl (by decide)⟩

/-- C3: on the ML path with a known confidence `c`, the low-confidence
fan-out (checklists for all top candidates, plus the prompt for a more
complete error, and no retrieval) runs exactly when `c` is strictly
below the 0.35 threshold; otherwise the normal branch with retrieval
runs. -/
theorem lowconf_branch_iff_threshold (text : String) (code : Option String)
    (top_k : ℤ) (m : MLModel) (c : ℚ)
    (hr : rule_predict text = none)
    (hc : (_predict_family_ml m (combine_inputs text code)).2.1 = some c) :
    mainDecision text code top_k m =
      if c < LOW_CONF_THRESHOLD then
        { family := (_predict_family_ml m (combine_inputs text code)).1,
          method := "ml", confidence := some c,
          candidates := (_predict_family_ml m (combine_inputs text code)).2.2,
          lowConfChecklists := some (_predict_family_ml m (combine_inputs text code)).2.2,
          promptExactError := true, retrieval := none }
      else
        { family := (_predict_family_ml m (combine_inputs text code)).1,
          method := "ml", confidence := some c,
          candidates := (_predict_family_ml m (combine_inputs text code)).2.2,
          lowConfChecklists := none, promptExactError := false,
          retrieval := some (combine_inputs text code, top_k) } := by
  by_cases hlt : c < LOW_CONF_THRESHOLD <;>
    simp [mainDecision, hr, hc, hlt]

/-- C3 witness: top probability 0.40 does not take the branch, 0.30
does. -/
theorem lowconf_branch_iff_threshold_witness :
    ¬ (mkRat 4 10 < LOW_CONF_THRESHOLD) ∧ (mkRat 3 10 < LOW_CONF_THRESHOLD) ∧
    mainDecision "zzz" none 3
        ⟨fun _ => "d", some fun _ =>
          [("a", mkRat 2 10), ("b", mkRat 2 10), ("c", mkRat 2 10), ("d", mkRat 4 10)]⟩ =
      { family := "d", method := "ml", confidence := some (mkRat 4 10),
        candidates := [("d", mkRat 4 10), ("a", mkRat 2 10), ("b", mkRat 2 10)],
        lowConfChecklists := none, promptExactError := false,
        retrieval := some ("zzz", 3) } ∧
    mainDecision "zzz" none 3
        ⟨fun _ => "a", some fun _ =>
          [("a", mkRat 3 10), ("b", mkRat 28 100), ("c", mkRat 25 100), ("e", mkRat 17 100)]⟩ =
      { family := "a", method := "ml", confidence := some (mkRat 3 10),
        candidates := [("a", mkRat 3 10), ("b", mkRat 28 100), ("c", mkRat 25 100)],
        lowConfChecklists := some [("a", mkRat 3 10), ("b", mkRat 28 100), ("c", mkRat 25 100)],
        promptExactError := true, retrieval := none } := by
  refine ⟨by decide, by decide, ?_, ?_⟩
  · rw [lowconf_branch_iff_threshold "zzz" none 3 _ (mkRat 4 10) (by decide) (by decide),
      if_neg (by decide)]
    decide
  · rw [lowconf_branch_iff_threshold "zzz" none 3 _ (mkRat 3 10) (by decide) (by decide),
      if_pos (by decide)]
    decide

/-- C2 counterexample: two cases with equal similarity to the query are
returned with the LATER corpus row first — `argsort()[::-1]` reverses a
stable ascending sort, so the earlier id loses ties. -/
theorem query_tiebreak_cex :
    ([(1 : ℚ), 1].getD 0 0 = [(1 : ℚ), 1].getD 1 0) ∧
    (queryResults [⟨"c0", "f0", "e0", "x0"⟩, ⟨"c1", "f1", "e1", "x1"⟩]
        [1, 1] 2).map (fun r => r.id) = ["c1", "c0"] ∧
    ("c1" : String) ≠ "c0" := by
  refine ⟨by decide, by decide, by decide⟩

/-- C2 amended: among stored cases with equal cosine similarity to the
query, `RetrievalIndex.query` orders them by DESCENDING original corpus
position (the later row first): if rows `i < j` have equal scores and
both occur in the returned index list, `j` occurs strictly before `i`. -/
theorem query_tiebreak_later_first (sims : List ℚ) (top_k : ℤ)
    (i j p q : ℕ)
    (hi : i < sims.length) (hj : j < sims.length) (hij : i < j)
    (heq : sims.getD i 0 = sims.getD j 0)
    (hp : p < (queryIndices sims top_k).length)
    (hq : q < (queryIndices sims top_k).length)
    (hpi : (queryIndices sims top_k).get ⟨p, hp⟩ = i)
    (hqj : (queryIndices sims top_k).get ⟨q, hq⟩ = j) :
    q < p := by
  have hpair : List.Pairwise (fun a b => simLE sims b a) (queryIndices sims top_k) := by
    have h1 : List.Pairwise (simLE sims) (argsort sims) :=
      List.sorted_insertionSort (simLE sims) (List.range sims.length)
    have h2 : List.Pairwise (fun a b => simLE sims b a) (argsort sims).reverse :=
      List.pairwise_reverse.2 h1
    unfold queryIndices
    split
    · exact List.Pairwise.nil
    · exact h2.sublist (List.take_sublist _ _)
  rcases Nat.lt_trichotomy p q with hlt | heqpq | hgt
  · exfalso
    have hrel := (List.pairwise_iff_get.1 hpair) ⟨p, hp⟩ ⟨q, hq⟩ hlt
    rw [hpi, hqj] at hrel
    rcases hrel with hv | ⟨_, hle⟩
    · rw [heq] at hv
      exact lt_irrefl _ hv
    · omega
  · exfalso
    have : i = j := by
      rw [← hpi, ← hqj]
      congr 1
      exact Fin.ext heqpq
    omega
  · exact hgt

/-- C2 amended witness at sims `[1, 1]`, rows `0 < 1`, result `[1, 0]`. -/
theorem query_tiebreak_later_first_witness :
    ([(1 : ℚ), 1].getD 0 0 = [(1 : ℚ), 1].getD 1 0) ∧ (0 : ℕ) < 1 :=
  ⟨by decide,
    query_tiebreak_later_first [1, 1] 2 0 1 1 0 (by decide) (by decide)
      (by decide) (by decide) (by decide) (by decide) (by decide) (by decide)⟩

/-- C6: `query` returns an empty sequence for `top_k <= 0` and exactly
`min top_k corpus_size` results for `top_k > 0` (so an oversized
`top_k` yields corpus-size results). -/
theorem query_topk_bounds (cases : List Case) (sims : List ℚ) (top_k : ℤ)
    (hlen : sims.length = cases.length) :
    (top_k ≤ 0 → queryResults cases sims top_k = []) ∧
    (0 < top_k →
      (queryResults cases sims top_k).length = min top_k.toNat cases.length) := by
  constructor
  · intro h
    simp [queryResults, queryIndices, h]
  · intro h
    have h2 : ¬ top_k ≤ 0 := not_le.2 h
    simp [queryResults, queryIndices, argsort, h2, List.length_take,
      List.length_insertionSort, List.length_range, hlen]

/-- C6 witness: corpus of size 2, `top_k = 0` and `top_k = 5`. -/
theorem query_topk_bounds_witness :
    queryResults [⟨"a", "f", "e", "x"⟩, ⟨"b", "g", "h", "y"⟩] [1, 2] 0 = [] ∧
    (queryResults [⟨"a", "f", "e", "x"⟩, ⟨"b", "g", "h", "y"⟩] [1, 2] 5).length =
      min (Int.toNat 5) 2 :=
  ⟨(query_topk_bounds [⟨"a", "f", "e", "x"⟩, ⟨"b", "g", "h", "y"⟩] [1, 2] 0 rfl).1
      (by decide),
   (query_topk_bounds [⟨"a", "f", "e", "x"⟩, ⟨"b", "g", "h", "y"⟩] [1, 2] 5 rfl).2
      (by decide)⟩

/-- C7: on empty or all-whitespace input the rule classifier returns the
no-decision value `none` (it is a total function, so it cannot raise). -/
theorem rule_predict_blank_none (s : String)
    (h : ∀ c ∈ s.data, isWs c = true) :
    rule_predict s = none := by
  have hd : s.data.dropWhile isWs = [] := List.dropWhile_eq_nil_iff.2 h
  simp [rule_predict, pstrip, hd]

/-- C7 witness at `"  \n\t "`. -/
theorem rule_predict_blank_none_witness :
    (∀ c ∈ "  \n\t ".data, isWs c = true) ∧ rule_predict "  \n\t " = none :=
  ⟨by decide, rule_predict_blank_none "  \n\t " (by decide)⟩

/-- The first-match-wins semantics of the rule loop: a match at index `i`
guarantees the returned family is that of the least matching index,
which is at most `i`. -/
theorem firstRule_first_match (t : List Char) :
    ∀ (L : List (String × (List Char → Bool))) (i : ℕ) (hi : i < L.length),
      (L.get ⟨i, hi⟩).2 t = true →
      ∃ (k : ℕ) (hk : k < L.length), k ≤ i ∧ (L.get ⟨k, hk⟩).2 t = true ∧
        (∀ (m : ℕ) (hm : m < L.length), m < k → (L.get ⟨m, hm⟩).2 t = false) ∧
        firstRule L t = some (L.get ⟨k, hk⟩).1 := by
  intro L
  induction L with
  | nil => intro i hi; simp at hi
  | cons hd tl ih =>
    intro i hi hmatch
    obtain ⟨fam, pat⟩ := hd
    by_cases hhd : pat t = true
    · refine ⟨0, by simp, Nat.zero_le _, by simpa using hhd, ?_, ?_⟩
      · intro m hm hmk; omega
      · simp [firstRule, hhd]
    · rw [Bool.not_eq_true] at hhd
      have hi0 : i ≠ 0 := by
        intro h0
        subst h0
        simp at hmatch
        rw [hhd] at hmatch
        exact Bool.false_ne_true hmatch
      obtain ⟨i', rfl⟩ := Nat.exists_eq_succ_of_ne_zero hi0
      have hi' : i' < tl.length := by simpa using hi
      have hmatch' : (tl.get ⟨i', hi'⟩).2 t = true := by simpa using hmatch
      obtain ⟨k, hk, hki, hkm, hmin, heq⟩ := ih i' hi' hmatch'
      refine ⟨k + 1, by simpa using hk, by omega, by simpa using hkm, ?_, ?_⟩
      · intro m hm hmk
        match m with
        | 0 => simpa using hhd
        | m' + 1 =>
          have hm' : m' < tl.length := by simpa using hm
          simpa using hmin m' hm' (by omega)
      · simpa [firstRule, hhd] using heq

/-- C4: when rules of two different families both match, `rule_predict`
returns the family of the first matching rule in declaration order
(whose index is at most that of the earlier of the two), regardless of
where in the text the patterns match. -/
theorem rule_precedence_first_match (s : String) (i j : ℕ)
    (hi : i < _RULES.length) (hj : j < _RULES.length) (hij : i < j)
    (hmi : (_RULES.get ⟨i, hi⟩).2 (pstrip s.data) = true)
    (hmj : (_RULES.get ⟨j, hj⟩).2 (pstrip s.data) = true)
    (hfam : (_RULES.get ⟨i, hi⟩).1 ≠ (_RULES.get ⟨j, hj⟩).1) :
    ∃ (k : ℕ) (hk : k < _RULES.length), k ≤ i ∧
      (_RULES.get ⟨k, hk⟩).2 (pstrip s.data) = true ∧
      (∀ (m : ℕ) (hm : m < _RULES.length), m < k →
        (_RULES.get ⟨m, hm⟩).2 (pstrip s.data) = false) ∧
      rule_predict s = some (_RULES.get ⟨k, hk⟩).1 := by
  have hallnil : ∀ r ∈ _RULES, r.2 [] = false := by decide
  have hne : (pstrip s.data).isEmpty = false := by
    cases hps : (pstrip s.data).isEmpty
    · rfl
    · exfalso
      have hemp : pstrip s.data = [] := by
        cases hval : pstrip s.data
        · rfl
        · rw [hval] at hps; simp at hps
      rw [hemp] at hmi
      have := hallnil _ (List.get_mem _RULES i hi)
      rw [this] at hmi
      exact Bool.false_ne_true hmi
  have hne2 : s.data.isEmpty = false := by
    cases hval : s.data
    · exfalso
      have : pstrip s.data = [] := by rw [hval]; rfl
      rw [this] at hne
      simp at hne
    · rfl
  have hguard : (s.data.isEmpty || (pstrip s.data).isEmpty) = false := by
    rw [hne, hne2]; rfl
  obtain ⟨k, hk, hki, hkm, hmin, heq⟩ :=
    firstRule_first_match (pstrip s.data) _RULES i hi hmi
  refine ⟨k, hk, hki, hkm, hmin, ?_⟩
  unfold rule_predict
  rw [hguard]
  simpa using heq

/-- C4 witness: `"SyntaxError: TypeError"` matches the syntax_error rule
(index 4) and the type_error rule (index 8); the returned family is that
of the first matching rule. -/
theorem rule_precedence_first_match_witness :
    ((_RULES.get ⟨4, by decide⟩).2 (pstrip "SyntaxError: TypeError".data) = true) ∧
    ((_RULES.get ⟨8, by decide⟩).2 (pstrip "SyntaxError: TypeError".data) = true) ∧
    ∃ (k : ℕ) (hk : k < _RULES.length), k ≤ 4 ∧
      (_RULES.get ⟨k, hk⟩).2 (pstrip "SyntaxError: TypeError".data) = true ∧
      (∀ (m : ℕ) (hm : m < _RULES.length), m < k →
        (_RULES.get ⟨m, hm⟩).2 (pstrip "SyntaxError: TypeError".data) = false) ∧
      rule_predict "SyntaxError: TypeError" = some (_RULES.get ⟨k, hk⟩).1 :=
  ⟨by decide, by decide,
    rule_precedence_first_match "SyntaxError: TypeError" 4 8 (by decide) (by decide)
      (by decide) (by decide) (by decide) (by decide)⟩

/-- A quote character is not whitespace. -/
theorem quote_not_ws {c : Char} (h : isQuote c = true) : isWs c = false := by
  simp [isQuote] at h
  rcases h with h | h <;> subst h <;> decide

/-- A quote character is not in the key character class. -/
theorem quote_not_keyChar {c : Char} (h : isQuote c = true) : isKeyChar c = false := by
  simp [isQuote] at h
  rcases h with h | h <;> subst h <;> decide

/-- `takeWhile`/`dropWhile` on an explicit split: if every element of `a`
satisfies `p` and the head of `b` (when any) does not, the split is
exactly recovered. -/
theorem tw_dw_split (p : Char → Bool) :
    ∀ (a b : List Char), (∀ x ∈ a, p x = true) →
      (∀ y, b.head? = some y → p y = false) →
      (a ++ b).takeWhile p = a ∧ (a ++ b).dropWhile p = b := by
  intro a
  induction a with
  | nil =>
    intro b _ hb
    cases b with
    | nil => exact ⟨rfl, rfl⟩
    | cons y ys =>
      have hy : p y = false := hb y rfl
      constructor
      · simp [List.takeWhile_cons, hy]
      · simp [List.dropWhile_cons, hy]
  | cons x xs ih =>
    intro b ha hb
    have hx : p x = true := ha x (List.mem_cons_self x xs)
    obtain ⟨ht, hd⟩ := ih b (fun z hz => ha z (List.mem_cons_of_mem x hz)) hb
    constructor
    · simp [List.takeWhile_cons, hx, ht]
    · simp [List.dropWhile_cons, hx, hd]

/-- The per-line matcher of the bare-quoted-key rule coincides with its
specification-side reading. -/
theorem lineHit_iff_spec (l : List Char) : lineHit l = true ↔ specBareKeyLine l := by
  constructor
  · intro h
    cases hdw : l.dropWhile isWs with
    | nil =>
      simp only [lineHit, hdw] at h
      exact (Bool.false_ne_true h).elim
    | cons q rest =>
      simp only [lineHit, hdw] at h
      cases hdk : rest.dropWhile isKeyChar with
      | nil => simp only [hdk] at h; simp at h
      | cons q2 rest2 =>
        simp only [hdk] at h
        simp only [Bool.and_eq_true, Bool.not_eq_true'] at h
        obtain ⟨⟨⟨hq, hne⟩, hlen⟩, hq2, hws2⟩ := h
        refine ⟨l.takeWhile isWs, q, rest.takeWhile isKeyChar, q2, rest2, ?_, ?_, hq, ?_, ?_, ?_, hq2, ?_⟩
        · have h1 : l.takeWhile isWs ++ (q :: rest) = l := by
            rw [← hdw]; exact List.takeWhile_append_dropWhile isWs l
          have h2 : rest.takeWhile isKeyChar ++ (q2 :: rest2) = rest := by
            rw [← hdk]; exact List.takeWhile_append_dropWhile isKeyChar rest
          rw [h2, h1]
        · intro x hx; exact List.mem_takeWhile_imp hx
        · cases hc : rest.takeWhile isKeyChar with
          | nil => rw [hc] at hne; simp at hne
          | cons z zs => simp [hc]
        · exact of_decide_eq_true hlen
        · intro x hx; exact List.mem_takeWhile_imp hx
        · exact List.all_eq_true.1 hws2
  · rintro ⟨w1, q, c, q2, w2, rfl, hw1, hq, hlen1, hlen40, hc, hq2, hw2⟩
    have hdw : (w1 ++ q :: (c ++ q2 :: w2)).dropWhile isWs = q :: (c ++ q2 :: w2) :=
      (tw_dw_split isWs w1 (q :: (c ++ q2 :: w2)) hw1
        (by intro y hy; cases hy; exact quote_not_ws hq)).2
    have hdk : (c ++ q2 :: w2).dropWhile isKeyChar = q2 :: w2 :=
      (tw_dw_split isKeyChar c (q2 :: w2) hc
        (by intro y hy; cases hy; exact quote_not_keyChar hq2)).2
    have htk : (c ++ q2 :: w2).takeWhile isKeyChar = c :=
      (tw_dw_split isKeyChar c (q2 :: w2) hc
        (by intro y hy; cases hy; exact quote_not_keyChar hq2)).1
    have hne : c.isEmpty = false := by
      cases c with
      | nil => simp at hlen1
      | cons z zs => rfl
    simp only [lineHit, hdw, htk, hdk]
    simp [hq, hq2, hne, hlen40, List.all_eq_true.2 hw2]

/-- C10: the bare-quoted-key rule (rule index 20, family `key_error`)
fires on a text exactly when some line of it consists solely — up to
surrounding whitespace — of a quoted token of 1 to 40 characters drawn
from letters, digits, underscore, space and hyphen (the opening and
closing quote may each independently be single or double). -/
theorem bare_key_rule_characterization (t : List Char) :
    bareKeySearch t = true ↔ ∃ l ∈ splitLines t, specBareKeyLine l := by
  unfold bareKeySearch
  rw [List.any_eq_true]
  constructor
  · rintro ⟨l, hl, hhit⟩
    exact ⟨l, hl, (lineHit_iff_spec l).1 hhit⟩
  · rintro ⟨l, hl, hspec⟩
    exact ⟨l, hl, (lineHit_iff_spec l).2 hspec⟩

/-!
### Lemmas for the amended idempotence claim (C1)

On inputs made only of lowercase ASCII letters and whitespace, every
masking substitution is the identity, lowercase is the identity, and
the pipeline reduces to strip-collapse-strip, which is idempotent.
-/

/-- Facts about a lowercase-or-whitespace character: fixed by `toLower`
and unable to start any masking pattern. -/
theorem lws_facts (c : Char) (h : lwsChar c = true) :
    Char.toLower c = c ∧ (c == ':') = false ∧ (c == '/') = false ∧
    (c == '0') = false ∧ isQuote c = false ∧ c.isDigit = false := by
  simp only [lwsChar, Bool.or_eq_true, Bool.and_eq_true, decide_eq_true_eq] at h
  rcases h with ⟨h1, h2⟩ | hws
  · have h97 : 97 ≤ c.toNat := by rw [Char.le_def] at h1; exact h1
    refine ⟨?_, ?_, ?_, ?_, ?_, ?_⟩
    · unfold Char.toLower
      rw [if_neg]
      intro hcond
      omega
    · cases hbe : c == ':'
      · rfl
      · exact absurd (eq_of_beq hbe ▸ h1) (by decide)
    · cases hbe : c == '/'
      · rfl
      · exact absurd (eq_of_beq hbe ▸ h1) (by decide)
    · cases hbe : c == '0'
      · rfl
      · exact absurd (eq_of_beq hbe ▸ h1) (by decide)
    · cases hbe : isQuote c
      · rfl
      · exfalso
        simp only [isQuote, Bool.or_eq_true] at hbe
        rcases hbe with hq | hq <;> exact absurd (eq_of_beq hq ▸ h1) (by decide)
    · cases hbe : c.isDigit
      · rfl
      · exfalso
        simp only [Char.isDigit, Bool.and_eq_true, decide_eq_true_eq] at hbe
        have h57 : c.toNat ≤ 57 := hbe.2
        omega
  · simp only [isWs, Bool.or_eq_true] at hws
    rcases hws with ((((hq | hq) | hq) | hq) | hq) | hq <;>
      rw [eq_of_beq hq] <;> exact ⟨by decide, by decide, by decide, by decide, by decide, by decide⟩

/-- A successful literal match leaves a remainder whose elements all come
from the scanned list. -/
theorem matchCI_subset : ∀ (lit s r : List Char), matchCI lit s = some r →
    ∀ x ∈ r, x ∈ s := by
  intro lit
  induction lit with
  | nil =>
    intro s r h x hx
    cases h
    exact hx
  | cons a as ih =>
    intro s r h x hx
    cases s with
    | nil => cases h
    | cons c cs =>
      simp only [matchCI] at h
      by_cases hc : (c.toLower == a) = true
      · rw [if_pos hc] at h
        exact List.mem_cons_of_mem c (ih cs r h x hx)
      · rw [if_neg hc] at h
        cases h

theorem tryWin_lws (prev : Option Char) (t : List Char)
    (h : ∀ c ∈ t, lwsChar c = true) : tryWin prev t = none := by
  match t with
  | [] => rfl
  | [a] => rfl
  | [a, b] => rfl
  | a :: b :: c :: rest =>
    have hb := (lws_facts b (h b (by simp))).2.1
    simp [tryWin, hb]

theorem unixSegs_lws : ∀ (f : ℕ) (t : List Char),
    (∀ c ∈ t, lwsChar c = true) → unixSegs f t = none := by
  intro f t h
  cases f with
  | zero => rfl
  | succ f =>
    cases t with
    | nil => rfl
    | cons c rest =>
      have hc := (lws_facts c (h c (by simp))).2.2.1
      simp [unixSegs, hc]

theorem tryUnix_lws (prev : Option Char) (t : List Char)
    (h : ∀ c ∈ t, lwsChar c = true) : tryUnix prev t = none :=
  unixSegs_lws (t.length + 1) t h

theorem tryLine_lws (prev : Option Char) (t : List Char)
    (h : ∀ c ∈ t, lwsChar c = true) : tryLine prev t = none := by
  unfold tryLine
  split
  · rfl
  · cases hm : matchCI "line".data t with
    | none => rfl
    | some r1 =>
      have hr1 : ∀ c ∈ r1, lwsChar c = true :=
        fun c hc => h c (matchCI_subset "line".data t r1 hm c hc)
      have hd : ((r1.drop (r1.takeWhile isWs).length).takeWhile Char.isDigit).isEmpty = true := by
        cases hr2 : r1.drop (r1.takeWhile isWs).length with
        | nil => rfl
        | cons x xs =>
          have hx : x ∈ r1 := by
            have : x ∈ r1.drop (r1.takeWhile isWs).length := by rw [hr2]; simp
            exact (List.drop_subset _ r1) this
          have hxd := (lws_facts x (hr1 x hx)).2.2.2.2.2
          rw [List.takeWhile_cons, if_neg (by rw [hxd]; exact Bool.false_ne_true)]
          rfl
      simp [hd]

theorem tryHex_lws (prev : Option Char) (t : List Char)
    (h : ∀ c ∈ t, lwsChar c = true) : tryHex prev t = none := by
  unfold tryHex
  split
  · rfl
  · match t with
    | [] => rfl
    | [a] => rfl
    | c0 :: c1 :: rest =>
      have hc0 := (lws_facts c0 (h c0 (by simp))).2.2.2.1
      simp [hc0]

theorem tryStr_lws (prev : Option Char) (t : List Char)
    (h : ∀ c ∈ t, lwsChar c = true) : tryStr prev t = none := by
  match t with
  | [] => rfl
  | c :: rest =>
    have hc := (lws_facts c (h c (by simp))).2.2.2.2.1
    simp [tryStr, hc]

theorem tryNum_lws (prev : Option Char) (t : List Char)
    (h : ∀ c ∈ t, lwsChar c = true) : tryNum prev t = none := by
  unfold tryNum
  split
  · rfl
  · match t with
    | [] => rfl
    | c :: rest =>
      have hc := (lws_facts c (h c (by simp))).2.2.2.2.2
      simp [hc]

/-- A substitution whose matcher never fires is the identity. -/
theorem scanSub_id (tryM : Option Char → List Char → Option (List Char × List Char))
    (tok : List Char)
    (hnone : ∀ prev t, (∀ c ∈ t, lwsChar c = true) → tryM prev t = none) :
    ∀ (f : ℕ) (prev : Option Char) (t : List Char),
      (∀ c ∈ t, lwsChar c = true) → scanSub tryM tok f prev t = t := by
  intro f
  induction f with
  | zero => intro prev t _; rfl
  | succ f ih =>
    intro prev t h
    cases t with
    | nil => rfl
    | cons c rest =>
      have hn := hnone prev (c :: rest) h
      simp only [scanSub, hn]
      exact congrArg (c :: ·) (ih (some c) rest (fun z hz => h z (List.mem_cons_of_mem c hz)))

theorem plower_id (l : List Char) (h : ∀ c ∈ l, lwsChar c = true) :
    plower l = l := by
  unfold plower
  induction l with
  | nil => rfl
  | cons c r ih =>
    rw [List.map_cons, (lws_facts c (h c (by simp))).1,
      ih (fun z hz => h z (List.mem_cons_of_mem c hz))]

theorem pstrip_subset {l : List Char} {x : Char} (hx : x ∈ pstrip l) : x ∈ l := by
  unfold pstrip at hx
  rw [List.mem_reverse] at hx
  have h1 : x ∈ (l.dropWhile isWs).reverse := (List.dropWhile_sublist isWs).mem hx
  rw [List.mem_reverse] at h1
  exact (List.dropWhile_sublist isWs).mem h1

/-- The head of a `dropWhile` result does not satisfy the predicate. -/
theorem dropWhile_head_false (p : Char → Bool) (l : List Char) :
    ∀ y, (l.dropWhile p).head? = some y → p y = false := by
  induction l with
  | nil => intro y hy; cases hy
  | cons c r ih =>
    intro y hy
    by_cases hc : p c = true
    · rw [List.dropWhile_cons, if_pos hc] at hy
      exact ih y hy
    · rw [List.dropWhile_cons, if_neg hc] at hy
      rw [Bool.not_eq_true] at hc
      cases hy
      exact hc

/-- `dropWhile` drops only from the front, so a non-empty result keeps
the last element. -/
theorem dropWhile_getLast (p : Char → Bool) :
    ∀ l : List Char, l.dropWhile p ≠ [] → (l.dropWhile p).getLast? = l.getLast? := by
  intro l
  induction l with
  | nil => intro hne; exact absurd rfl hne
  | cons c r ih =>
    intro hne
    by_cases hc : p c = true
    · rw [List.dropWhile_cons, if_pos hc] at hne ⊢
      rw [ih hne]
      have hr : r ≠ [] := by
        intro h0
        subst h0
        exact hne rfl
      cases r with
      | nil => exact absurd rfl hr
      | cons d ds => rw [List.getLast?_cons_cons]
    · rw [List.dropWhile_cons, if_neg hc]

/-- `dropWhile` is the identity when the head does not satisfy `p`. -/
theorem dropWhile_id (p : Char → Bool) (l : List Char)
    (h : ∀ y, l.head? = some y → p y = false) : l.dropWhile p = l := by
  cases l with
  | nil => rfl
  | cons c r =>
    rw [List.dropWhile_cons, if_neg]
    rw [h c rfl]
    exact Bool.false_ne_true

theorem pstrip_noEdge (l : List Char) : noEdgeWs (pstrip l) = true := by
  unfold noEdgeWs
  rw [Bool.and_eq_true]
  constructor
  · cases hh : (pstrip l).head? with
    | none => rfl
    | some y =>
      unfold pstrip at hh
      rw [List.head?_reverse] at hh
      have hne : (l.dropWhile isWs).reverse.dropWhile isWs ≠ [] := by
        intro h0
        rw [h0] at hh
        cases hh
      rw [dropWhile_getLast isWs _ hne, List.getLast?_reverse] at hh
      have hy := dropWhile_head_false isWs _ y hh
      simp [hy]
  · cases hh : (pstrip l).getLast? with
    | none => rfl
    | some y =>
      unfold pstrip at hh
      rw [List.getLast?_reverse] at hh
      have hy := dropWhile_head_false isWs _ y hh
      simp [hy]

theorem pstrip_id (l : List Char) (h : noEdgeWs l = true) : pstrip l = l := by
  unfold noEdgeWs at h
  rw [Bool.and_eq_true] at h
  obtain ⟨hh, hl⟩ := h
  have h1 : l.dropWhile isWs = l := by
    apply dropWhile_id
    intro y hy
    rw [hy] at hh
    rw [Bool.not_eq_true'] at hh
    exact hh
  unfold pstrip
  rw [h1]
  have h2 : l.reverse.dropWhile isWs = l.reverse := by
    apply dropWhile_id
    intro y hy
    rw [List.head?_reverse] at hy
    rw [hy] at hl
    rw [Bool.not_eq_true'] at hl
    exact hl
  rw [h2, List.reverse_reverse]

theorem noDD_tail (c : Char) (r : List Char) (h : noDD (c :: r) = true) :
    noDD r = true := by
  cases r with
  | nil => rfl
  | cons d ds =>
    simp only [noDD, Bool.and_eq_true] at h
    exact h.2

theorem noDD_iff_chain (l : List Char) :
    noDD l = true ↔ List.Chain' (fun a b => ¬(isWs a = true ∧ isWs b = true)) l := by
  induction l with
  | nil => simp [noDD]
  | cons c r ih =>
    cases r with
    | nil => simp [noDD]
    | cons d ds =>
      rw [List.chain'_cons, ← ih]
      simp only [noDD, Bool.and_eq_true, Bool.not_eq_true']
      constructor
      · rintro ⟨h1, h2⟩
        refine ⟨?_, h2⟩
        rintro ⟨ha, hb⟩
        rw [ha, hb] at h1
        simp at h1
      · rintro ⟨h1, h2⟩
        refine ⟨?_, h2⟩
        cases ha : isWs c <;> cases hb : isWs d <;> simp_all

theorem noDD_reverse (l : List Char) (h : noDD l = true) : noDD l.reverse = true := by
  rw [noDD_iff_chain] at h ⊢
  rw [List.chain'_reverse]
  exact List.Chain'.imp (fun {a b} hab ⟨x, y⟩ => hab ⟨y, x⟩) h

theorem noDD_dropWhile (p : Char → Bool) (l : List Char) (h : noDD l = true) :
    noDD (l.dropWhile p) = true := by
  induction l with
  | nil => exact h
  | cons c r ih =>
    by_cases hc : p c = true
    · rw [List.dropWhile_cons, if_pos hc]
      exact ih (noDD_tail c r h)
    · rw [List.dropWhile_cons, if_neg hc]
      exact h

theorem noDD_pstrip (l : List Char) (h : noDD l = true) : noDD (pstrip l) = true := by
  unfold pstrip
  exact noDD_reverse _ (noDD_dropWhile _ _ (noDD_reverse _ (noDD_dropWhile _ _ h)))

theorem wsAux_subset : ∀ (b : Bool) (l : List Char) (x : Char),
    x ∈ wsAux b l → x ∈ l ∨ x = ' ' := by
  intro b l
  induction l generalizing b with
  | nil => intro x hx; cases hx
  | cons c r ih =>
    intro x hx
    by_cases hc : isWs c = true
    · cases b with
      | true =>
        rw [show wsAux true (c :: r) = wsAux true r by simp [wsAux, hc]] at hx
        rcases ih true x hx with h | h
        · exact Or.inl (List.mem_cons_of_mem c h)
        · exact Or.inr h
      | false =>
        rw [show wsAux false (c :: r) = ' ' :: wsAux true r by simp [wsAux, hc]] at hx
        rcases List.mem_cons.1 hx with h | h
        · exact Or.inr h
        · rcases ih true x h with h2 | h2
          · exact Or.inl (List.mem_cons_of_mem c h2)
          · exact Or.inr h2
    · have hceq : wsAux b (c :: r) = c :: wsAux false r := by
        cases b <;> simp [wsAux, hc]
      rw [hceq] at hx
      rcases List.mem_cons.1 hx with h | h
      · exact Or.inl (h ▸ List.mem_cons_self c r)
      · rcases ih false x h with h2 | h2
        · exact Or.inl (List.mem_cons_of_mem c h2)
        · exact Or.inr h2

theorem spaceOnly_wsAux : ∀ (b : Bool) (l : List Char),
    spaceOnlyWs (wsAux b l) = true := by
  intro b l
  induction l generalizing b with
  | nil => rfl
  | cons c r ih =>
    by_cases hc : isWs c = true
    · cases b with
      | true =>
        rw [show wsAux true (c :: r) = wsAux true r by simp [wsAux, hc]]
        exact ih true
      | false =>
        rw [show wsAux false (c :: r) = ' ' :: wsAux true r by simp [wsAux, hc]]
        simp only [spaceOnlyWs, List.all_cons, Bool.and_eq_true]
        exact ⟨by decide, ih true⟩
    · have hceq : wsAux b (c :: r) = c :: wsAux false r := by
        cases b <;> simp [wsAux, hc]
      rw [hceq]
      simp only [spaceOnlyWs, List.all_cons, Bool.and_eq_true]
      refine ⟨?_, ih false⟩
      rw [Bool.not_eq_true] at hc
      simp [hc]

theorem wsAux_true_head : ∀ (l : List Char) (y : Char),
    (wsAux true l).head? = some y → isWs y = false := by
  intro l
  induction l with
  | nil => intro y hy; cases hy
  | cons c r ih =>
    intro y hy
    by_cases hc : isWs c = true
    · rw [show wsAux true (c :: r) = wsAux true r by simp [wsAux, hc]] at hy
      exact ih y hy
    · rw [show wsAux true (c :: r) = c :: wsAux false r by simp [wsAux, hc]] at hy
      cases hy
      rw [Bool.not_eq_true] at hc
      exact hc

theorem noDD_wsAux : ∀ (l : List Char) (b : Bool), noDD (wsAux b l) = true := by
  intro l
  induction l with
  | nil => intro b; rfl
  | cons c r ih =>
    intro b
    by_cases hc : isWs c = true
    · cases b with
      | true =>
        rw [show wsAux true (c :: r) = wsAux true r by simp [wsAux, hc]]
        exact ih true
      | false =>
        rw [show wsAux false (c :: r) = ' ' :: wsAux true r by simp [wsAux, hc]]
        cases hw : wsAux true r with
        | nil => rfl
        | cons y ys =>
          have hy : isWs y = false := wsAux_true_head r y (by rw [hw]; rfl)
          simp only [noDD, Bool.and_eq_true]
          refine ⟨by simp [hy], ?_⟩
          rw [← hw]
          exact ih true
    · have hceq : wsAux b (c :: r) = c :: wsAux false r := by
        cases b <;> simp [wsAux, hc]
      rw [hceq]
      cases hw : wsAux false r with
      | nil => rfl
      | cons y ys =>
        rw [Bool.not_eq_true] at hc
        simp only [noDD, Bool.and_eq_true]
        refine ⟨by simp [hc], ?_⟩
        rw [← hw]
        exact ih false

theorem wsAux_false_id : ∀ (l : List Char), noDD l = true → spaceOnlyWs l = true →
    wsAux false l = l := by
  intro l
  induction l with
  | nil => intro _ _; rfl
  | cons c r ih =>
    intro hnd hso
    have hso' : ((!isWs c || c == ' ') = true) ∧ spaceOnlyWs r = true := by
      simpa only [spaceOnlyWs, List.all_cons, Bool.and_eq_true] using hso
    by_cases hc : isWs c = true
    · have hcsp : c = ' ' := by
        rcases Bool.or_eq_true_iff.1 hso'.1 with h | h
        · rw [hc] at h; simp at h
        · exact eq_of_beq h
      rw [show wsAux false (c :: r) = ' ' :: wsAux true r by simp [wsAux, hc], ← hcsp]
      congr 1
      cases r with
      | nil => rfl
      | cons y ys =>
        have hy : isWs y = false := by
          simp only [noDD, Bool.and_eq_true] at hnd
          rcases hnd with ⟨h1, _⟩
          rw [hc] at h1
          cases hy2 : isWs y
          · rfl
          · rw [hy2] at h1; simp at h1
        have hstep : wsAux true (y :: ys) = wsAux false (y :: ys) := by
          simp [wsAux, hy]
        rw [hstep]
        exact ih (noDD_tail c (y :: ys) hnd) hso'.2
    · rw [show wsAux false (c :: r) = c :: wsAux false r by simp [wsAux, hc]]
      rw [ih (noDD_tail c r hnd) hso'.2]

/-- On lowercase-letters-and-whitespace input the entire masking stage of
`normalize_text` is the identity: the pipeline is strip-collapse-strip. -/
theorem normData_lws (l : List Char) (h : ∀ c ∈ l, lwsChar c = true) :
    normData l = pstrip (wsCollapse (pstrip l)) := by
  simp only [normData]
  have h1 : ∀ c ∈ pstrip l, lwsChar c = true := fun c hc => h c (pstrip_subset hc)
  rw [plower_id _ h1,
    scanSub_id tryWin _ tryWin_lws _ _ _ h1,
    scanSub_id tryUnix _ tryUnix_lws _ _ _ h1,
    scanSub_id tryLine _ tryLine_lws _ _ _ h1,
    scanSub_id tryHex _ tryHex_lws _ _ _ h1,
    scanSub_id tryStr _ tryStr_lws _ _ _ h1,
    scanSub_id tryNum _ tryNum_lws _ _ _ h1]

/-- C1 amended: the masking transform is idempotent on inputs made only
of lowercase ASCII letters and whitespace (in general a second
application lowercases, and may re-mask around, the placeholder tokens
introduced by the first, see the counterexample). -/
theorem normalize_idempotent_on_letters (s : String)
    (h : ∀ c ∈ s.data, lwsChar c = true) :
    normalize_text (normalize_text s) = normalize_text s := by
  refine congrArg String.mk ?_
  show normData (normData s.data) = normData s.data
  have ht : normData s.data = pstrip (wsCollapse (pstrip s.data)) := normData_lws s.data h
  have hlt : ∀ c ∈ normData s.data, lwsChar c = true := by
    intro c hc
    rw [ht] at hc
    have hc2 := pstrip_subset hc
    rcases wsAux_subset false (pstrip s.data) c hc2 with h2 | h2
    · exact h c (pstrip_subset h2)
    · rw [h2]; decide
  have hnd : noDD (normData s.data) = true := by
    rw [ht]
    exact noDD_pstrip _ (noDD_wsAux _ false)
  have hso : spaceOnlyWs (normData s.data) = true := by
    rw [ht]
    simp only [spaceOnlyWs, List.all_eq_true]
    intro c hc
    have hall := spaceOnly_wsAux false (pstrip s.data)
    simp only [spaceOnlyWs, List.all_eq_true] at hall
    exact hall c (pstrip_subset hc)
  have hedge : noEdgeWs (normData s.data) = true := by
    rw [ht]
    exact pstrip_noEdge _
  calc normData (normData s.data)
      = pstrip (wsCollapse (pstrip (normData s.data))) := normData_lws _ hlt
    _ = pstrip (wsCollapse (normData s.data)) := by rw [pstrip_id _ hedge]
    _ = pstrip (normData s.data) := by
        rw [show wsCollapse (normData s.data) = normData s.data from
          wsAux_false_id _ hnd hso]
    _ = normData s.data := pstrip_id _ hedge

/-- C1 amended witness at `"hello  world "`. -/
theorem normalize_idempotent_on_letters_witness :
    (∀ c ∈ "hello  world ".data, lwsChar c = true) ∧
    normalize_text (normalize_text "hello  world ") = normalize_text "hello  world " :=
  ⟨by decide, normalize_idempotent_on_letters "hello  world " (by decide)⟩
